import Mathlib

/-
Verification development for the NeoStats banking-assistant repository.

Shallow embedding of the retrieval core:
  * `src/utils/common_utils.py`  — `TextProcessor.chunk_text`, `Cache`
  * `src/build_faiss_index.py`   — `build_index`
  * `src/utils/rag_utils.py`     — `retrieve_similar_documents`
  * `src/models/llm.py`          — `generate_llm`

Python strings are modelled as `List Char`; Python `int` as `Int`;
dictionaries as insertion-ordered association lists; exceptions as
`Option`/`Except`; the potentially non-terminating chunking `while` loop
as a fuel-indexed recursion returning `none` when fuel is exhausted.
External collaborators (Azure OpenAI, FAISS search) are modelled as
oracle parameters delivering either a value or an exception.
-/

set_option maxRecDepth 4000

namespace NeoStats

/-! ## Python string primitives -/

/-- The characters stripped by Python `str.strip()` (ASCII whitespace;
the chunks produced by this repository contain no other whitespace). -/
def isPySpace (c : Char) : Bool :=
  c = ' ' || c = '\t' || c = '\n' || c = '\x0d' || c = '\x0b' || c = '\x0c'

/-- Python `s.strip()`: drop leading and trailing whitespace. -/
def pyStrip (l : List Char) : List Char :=
  ((l.dropWhile isPySpace).reverse.dropWhile isPySpace).reverse

/-- Clamp a Python slice bound to `[0, n]`, interpreting negative bounds
relative to the end of the string, as `str.__getitem__` and `str.rfind` do. -/
def pyBound (n : Nat) (i : Int) : Nat :=
  if i < 0 then (max ((n : Int) + i) 0).toNat else (min i (n : Int)).toNat

/-- Python `s[i:j]` on a string of characters. -/
def pySlice (l : List Char) (i j : Int) : List Char :=
  (l.take (pyBound l.length j)).drop (pyBound l.length i)

/-- Scan positions `s ≤ k < e` (descending) for the character `c`. -/
def pyRfindAux (l : List Char) (c : Char) (s : Nat) : Nat → Int
  | 0 => -1
  | k + 1 => if s ≤ k && (l.get? k == some c) then (k : Int) else pyRfindAux l c s k

/-- Python `s.rfind(c, i, j)`: highest index of `c` in the slice `s[i:j]`
(as an absolute index), or `-1` if absent. -/
def pyRfind (l : List Char) (c : Char) (i j : Int) : Int :=
  pyRfindAux l c (pyBound l.length i) (pyBound l.length j)

/-! ## `TextProcessor.chunk_text` (src/utils/common_utils.py, lines 131-168)

One iteration of the `while start < len(text)` loop computes a window end
(possibly snapped back to just after a sentence-ending period), extracts
and strips the window, and moves `start` to `end - overlap`.  The loop is
embedded with explicit fuel; `none` means the fuel ran out, i.e. the loop
performed more iterations than the given bound.  -/

/-- One loop iteration of `chunk_text`: given the window start, return the
next window start (`end - overlap`) and the stripped chunk of this window. -/
def chunkStep (text : List Char) (chunk_size overlap : Int) (start : Int) :
    Int × List Char :=
  let e0 := start + chunk_size
  let e :=
    if e0 < (text.length : Int) then
      let sentence_end := pyRfind text '.' start e0
      if sentence_end > start + Int.fdiv chunk_size 2 then sentence_end + 1 else e0
    else e0
  (e - overlap, pyStrip (pySlice text start e))

/-- The `while start < len(text)` loop of `chunk_text`, with fuel.
A non-empty stripped chunk is appended to the output; the loop exits when
the window start reaches or passes the end of the text. -/
def chunkLoop (text : List Char) (chunk_size overlap : Int) :
    Nat → Int → Option (List (List Char))
  | 0, _ => none
  | fuel + 1, start =>
    if start < (text.length : Int) then
      let st := chunkStep text chunk_size overlap start
      match chunkLoop text chunk_size overlap fuel st.1 with
      | none => none
      | some rest => some (if st.2.isEmpty then rest else st.2 :: rest)
    else some []

/-- `TextProcessor.chunk_text`: a text no longer than `chunk_size` is
returned whole as a single chunk; otherwise the sliding-window loop runs. -/
def chunk_text (text : List Char) (chunk_size overlap : Int) (fuel : Nat) :
    Option (List (List Char)) :=
  if (text.length : Int) ≤ chunk_size then some [text] else chunkLoop text chunk_size overlap fuel 0

/-- Input exhibiting non-termination of `chunk_text` for the valid
configuration `chunk_size = 10`, `overlap = 9`: a period placed just past
the window midpoint makes the snap move the window start backwards. -/
def cycleText : List Char := String.toList "aaaaaa.aaaaaaaaaaaaaaaaaaaa"

/-- Input exhibiting silent non-termination for `overlap = chunk_size`:
any period-free text longer than the chunk size. -/
def stuckText : List Char := String.toList "xxxxxxxxxxxxxxxxxxxx"

/-! ## Python dictionaries (insertion-ordered association lists)

`dict` lookup, in-place update (`d[k] = v` keeps an existing key at its
position, a fresh key is appended at the end), `del d[k]`, and `.keys()`
iteration order.  The `Cache` class only ever deletes keys obtained from
`access_times.keys()`, which (invariant, claim C10) always exist in both
dictionaries, so `del`'s `KeyError` can never fire and `erase` is total. -/

namespace PyDict

variable {V : Type}

/-- `k in d` / `d[k]` lookup. -/
def lookup (d : List (String × V)) (k : String) : Option V :=
  match d with
  | [] => none
  | (k', v) :: t => if k' = k then some v else lookup t k

/-- `d[k] = v`: update in place if present, else append at the end. -/
def insert (d : List (String × V)) (k : String) (v : V) : List (String × V) :=
  match d with
  | [] => [(k, v)]
  | (k', v') :: t => if k' = k then (k, v) :: t else (k', v') :: insert t k v

/-- `del d[k]`: remove the (unique) binding of `k`. -/
def erase (d : List (String × V)) (k : String) : List (String × V) :=
  match d with
  | [] => []
  | (k', v') :: t => if k' = k then t else (k', v') :: erase t k

/-- `d.keys()` in iteration order. -/
def keys (d : List (String × V)) : List String := d.map Prod.fst

end PyDict

/-! ## `Cache` (src/utils/common_utils.py, lines 225-283)

`datetime.now()` is modelled by a strictly increasing logical clock `now`,
ticked exactly where the source calls `datetime.now()` (on a `get` hit and
on every `set`); successive calls never return equal timestamps. -/

/-- One comparison step of Python's `min`: keep the earlier entry unless
the new one is strictly smaller. -/
def pickMin (acc : Option (String × Nat)) (p : String × Nat) : Option (String × Nat) :=
  match acc with
  | none => some p
  | some q => if p.2 < q.2 then some p else some q

/-- `min(access_times.keys(), key=lambda k: access_times[k])`: Python's
`min` scans keys in insertion order and keeps the first key whose time is
strictly smallest; `none` models the `ValueError` raised on an empty dict. -/
def oldestKey (ts : List (String × Nat)) : Option String :=
  (ts.foldl pickMin none).map Prod.fst

/-- The `Cache` class: bounded dictionary plus last-access times. -/
structure Cache (V : Type) where
  max_size : Nat
  cache : List (String × V)
  access_times : List (String × Nat)
  now : Nat

/-- `Cache.__init__(max_size)`. -/
def initCache (V : Type) (max_size : Nat) : Cache V :=
  { max_size := max_size, cache := [], access_times := [], now := 0 }

/-- `Cache.get`: on a hit, bump the key's access time to the present and
return the value; on a miss return `None` and touch nothing. -/
def Cache.get (c : Cache V) (k : String) : Option V × Cache V :=
  match PyDict.lookup c.cache k with
  | some v =>
      (some v,
        { c with access_times := PyDict.insert c.access_times k c.now, now := c.now + 1 })
  | none => (none, c)

/-- `Cache.set`: if the cache already holds `max_size` or more entries —
even when `key` itself is already present — first evict the key with the
oldest access time, then store the value and stamp the access time.
`none` models the `ValueError` of `min` over an empty `access_times`
(reachable only with `max_size = 0`). -/
def Cache.set (c : Cache V) (k : String) (v : V) : Option (Cache V) :=
  if c.max_size ≤ c.cache.length then
    match oldestKey c.access_times with
    | none => none
    | some old =>
      some
        { c with
          cache := PyDict.insert (PyDict.erase c.cache old) k v
          access_times := PyDict.insert (PyDict.erase c.access_times old) k c.now
          now := c.now + 1 }
  else
    some
      { c with
        cache := PyDict.insert c.cache k v
        access_times := PyDict.insert c.access_times k c.now
        now := c.now + 1 }

/-- `Cache.clear`. -/
def Cache.clear (c : Cache V) : Cache V :=
  { c with cache := [], access_times := [] }

/-- One client operation against the cache. -/
inductive CacheOp (V : Type) where
  | get (k : String)
  | set (k : String) (v : V)
  | clear

/-- Run one operation; `none` models an uncaught Python exception. -/
def applyOp (c : Cache V) : CacheOp V → Option (Cache V)
  | .get k => some (c.get k).2
  | .set k v => c.set k v
  | .clear => some c.clear

/-- Run a sequence of operations left to right. -/
def runOps (c : Cache V) : List (CacheOp V) → Option (Cache V)
  | [] => some c
  | op :: t =>
    match applyOp c op with
    | none => none
    | some c' => runOps c' t

/-- The `set` operations inserting an association list in order. -/
def setsOf (l : List (String × V)) : List (CacheOp V) :=
  l.map (fun p => CacheOp.set p.1 p.2)

/-- Access-time stamps `n, n+1, n+2, …` for a list of keys. -/
def stamps (n : Nat) : List String → List (String × Nat)
  | [] => []
  | k :: ks => (k, n) :: stamps (n + 1) ks

/-! ## `build_index` (src/build_faiss_index.py, lines 80-108)

The chunk store is serialized with `json.dumps({"text": chunk})`, one
object per line.  `json.dumps` with its defaults (`ensure_ascii=True`,
separators `", "` / `": "`) escapes per `ESCAPE_ASCII`: short escapes for
the usual control characters, `\u…` for other characters outside the
printable ASCII range (surrogate pairs above `U+FFFF`). -/

/-- Lowercase hex digit, as emitted by `json.dumps`. -/
def hexDigit (n : Nat) : Char :=
  if n < 10 then Char.ofNat (48 + n) else Char.ofNat (87 + n)

/-- A `\uXXXX` escape for a 16-bit code unit. -/
def uEscape (n : Nat) : List Char :=
  ['\\', 'u', hexDigit (n / 4096 % 16), hexDigit (n / 256 % 16),
    hexDigit (n / 16 % 16), hexDigit (n % 16)]

/-- `json.dumps` escaping of a single character (`ensure_ascii=True`). -/
def jsonEscapeChar (c : Char) : List Char :=
  if c = '\\' then ['\\', '\\']
  else if c = '"' then ['\\', '"']
  else if c = '\x08' then ['\\', 'b']
  else if c = '\x0c' then ['\\', 'f']
  else if c = '\n' then ['\\', 'n']
  else if c = '\x0d' then ['\\', 'r']
  else if c = '\t' then ['\\', 't']
  else if c.toNat < 32 || c.toNat > 126 then
    if c.toNat < 65536 then uEscape c.toNat
    else
      uEscape (55296 + (c.toNat - 65536) / 1024) ++ uEscape (56320 + (c.toNat - 65536) % 1024)
  else [c]

/-- `json.dumps` escaping of a whole string. -/
def jsonEscape (s : List Char) : List Char := (s.map jsonEscapeChar).flatten

/-- `json.dumps({"text": chunk})` — braces written via their code points. -/
def jsonDumpsTextObj (s : List Char) : List Char :=
  Char.ofNat 123 :: (String.toList "\"text\": \"" ++ jsonEscape s ++ ['"', Char.ofNat 125])

/-- The bytes written to `faiss_index/chunks.jsonl`: one serialized object
per chunk, each line terminated by `"\n"`, in input order. -/
def chunksJsonl (chunks : List (List Char)) : List Char :=
  (chunks.map (fun c => jsonDumpsTextObj c ++ ['\n'])).flatten

/-- Split file bytes at newline characters (to state row count/order). -/
def splitLines : List Char → List (List Char)
  | [] => [[]]
  | c :: rest =>
    if c = '\n' then [] :: splitLines rest
    else
      match splitLines rest with
      | [] => [[c]]
      | l :: ls => (c :: l) :: ls

/-- The artifacts a successful `build_index` run writes: the flat L2 index
(dimension taken from the first embedding, rows in input order) and the
chunk-store bytes.  The failure paths of `build_index` return an
`Except.error` carrying no artifacts: nothing has been written when a
validation error is raised. -/
structure BuildOutput (α : Type) where
  indexDim : Nat
  indexRows : List (List α)
  chunksFileBytes : List Char

/-- `ValueError` message for empty input (line 83). -/
def errNoChunks : String := "No chunks or embeddings provided for indexing"

/-- `ValueError` message for mismatched input (line 86). -/
def errMismatch (nc ne : Nat) : String :=
  "Mismatch: " ++ toString nc ++ " chunks vs " ++ toString ne ++ " embeddings"

/-- `np.vstack` exception on ragged embedding lists (line 91), which
propagates out of `build_index` uncaught. -/
def errVstack : String :=
  "all the input array dimensions except for the concatenation axis must match exactly"

/-- `build_index(chunks, embeddings)`: validate, then build the index and
serialize the chunk store.  Both validation errors are raised before any
file is created, so the error value carries no `BuildOutput`. -/
def build_index {α : Type} (chunks : List (List Char)) (embeddings : List (List α)) :
    Except String (BuildOutput α) :=
  if chunks.isEmpty || embeddings.isEmpty then .error errNoChunks
  else if chunks.length ≠ embeddings.length then
    .error (errMismatch chunks.length embeddings.length)
  else
    let dim := (embeddings.headD []).length
    if embeddings.any (fun e => e.length ≠ dim) then .error errVstack
    else .ok { indexDim := dim, indexRows := embeddings, chunksFileBytes := chunksJsonl chunks }

/-! ## `retrieve_similar_documents` (src/utils/rag_utils.py, lines 97-118)

The module-level load leaves either a loaded index (`some ()`) with its
parallel chunk list, or `index = None` with `chunks = []`.  The body of
the `try` block — `embed_query` followed by `index.search` — is an
external call modelled as an oracle `Except`: `error e` is any exception
raised while embedding or searching, `ok indices` the row indices of
`indices[0]`. -/

/-- Python `chunks[idx]` on a list: negative indices count from the end;
`none` models the `IndexError` raised outside `[-len, len)`. -/
def pyListGet {α : Type} (l : List α) (i : Int) : Option α :=
  let j := if i < 0 then (l.length : Int) + i else i
  if 0 ≤ j then l.get? j.toNat else none

/-- The comprehension `[chunks[idx] for idx in indices[0] if idx < len(chunks)]`;
`none` models an `IndexError` escaping the comprehension (then caught by
the surrounding `except`). -/
def retrieveComp (chunks : List String) : List Int → Option (List String)
  | [] => some []
  | i :: rest =>
    if i < (chunks.length : Int) then
      match pyListGet chunks i with
      | none => none
      | some c => (retrieveComp chunks rest).map (fun r => c :: r)
    else retrieveComp chunks rest

/-- Placeholder returned when the index was never loaded (line 109). -/
def errNotLoaded : String :=
  "Error: FAISS index not loaded. Please run build_faiss_index.py first."

/-- Placeholder returned when no valid result survives filtering (line 115). -/
def noRelevantMsg : String := "No relevant documents found."

/-- Error result built from a caught exception message (line 118). -/
def errRetrieving (e : String) : String := "Error retrieving documents: " ++ e

/-- Message of Python's list `IndexError`. -/
def indexErrorMsg : String := "list index out of range"

/-- `retrieve_similar_documents(query, top_k)`.  (`chunks` can never be
`None`: the module-level loader assigns either the loaded list or `[]`,
so the `chunks is None` disjunct of line 108 is vacuous.) -/
def retrieve_similar_documents (index : Option Unit) (chunks : List String)
    (searchOutcome : Except String (List Int)) : List String :=
  match index with
  | none => [errNotLoaded]
  | some _ =>
    match searchOutcome with
    | .error e => [errRetrieving e]
    | .ok indices =>
      match retrieveComp chunks indices with
      | none => [errRetrieving indexErrorMsg]
      | some results => if results.isEmpty then [noRelevantMsg] else results

/-! ## `generate_llm` (src/models/llm.py, lines 32-88)

The completion call is an oracle: `error e` is any exception raised inside
the `try` block by `client.chat.completions.create` (or while consuming
its result), `ok` its response.  A non-streamed response carries
`choices[0].message.content` (which the API may return as `None` — then
`content.strip()` raises `AttributeError`, caught by the same `except`);
a streamed response carries the sequence of `delta.content` values.  The
response shape always matches the `stream` flag passed to the call, so the
oracle returns the shape directly. -/

/-- The completion response, per the `stream` flag sent with the request. -/
inductive CompletionResponse where
  | nonstream (content : Option String)
  | streamed (deltas : List (Option String))

/-- System prompt selection on `mode` (lines 53-63). -/
def systemPromptFor (mode : String) : String :=
  if mode = "concise" then
    "You are a helpful AI assistant specializing in Indian banking, finance, and regulations. Respond concisely and clearly."
  else
    "You are a helpful AI assistant specializing in Indian banking, finance, and regulations. Provide detailed and comprehensive answers including examples and context where appropriate."

/-- Returned when `get_azure_client()` yields `None` (line 48). -/
def errConfigInvalid : String :=
  "Error: Azure OpenAI configuration is invalid. Please check your .env file and ensure all required variables are set."

/-- The `except` handler's return value (line 88). -/
def errFromLLM (e : String) : String := "Error from LLM: " ++ e

/-- Message of the `AttributeError` raised by `None.strip()`. -/
def noneStripError : String := "'NoneType' object has no attribute 'strip'"

/-- Python `str.strip()` on the Lean `String` representation. -/
def pyStripStr (s : String) : String := String.mk (pyStrip s.toList)

/-- `generate_llm(prompt, mode, stream)`.  The oracle `call` maps the
assembled request (system prompt and user prompt) to the external
outcome; every failure path returns an error string, never an exception. -/
def generate_llm (client : Option Unit) (prompt mode : String)
    (call : String → String → Except String CompletionResponse) : String :=
  match client with
  | none => errConfigInvalid
  | some _ =>
    match call (systemPromptFor mode) prompt with
    | .error e => errFromLLM e
    | .ok (.nonstream (some content)) => pyStripStr content
    | .ok (.nonstream none) => errFromLLM noneStripError
    | .ok (.streamed deltas) => pyStripStr (String.join (deltas.filterMap id))

/-! ## Lemmas: `pyStrip` -/

/-- The head of a `dropWhile` result does not satisfy the predicate. -/
theorem dropWhile_head_not (p : Char → Bool) (l : List Char) :
    l.dropWhile p = [] ∨ ∃ a t, l.dropWhile p = a :: t ∧ p a = false := by
  induction l with
  | nil => exact Or.inl rfl
  | cons a t ih =>
    by_cases h : p a
    · simpa [List.dropWhile_cons, h] using ih
    · exact Or.inr ⟨a, t, by simp [List.dropWhile_cons, h], by simpa using h⟩

/-- A list whose head fails the predicate is untouched by `dropWhile`. -/
theorem dropWhile_eq_self_of_head (p : Char → Bool) (l : List Char)
    (h : l = [] ∨ ∃ a t, l = a :: t ∧ p a = false) : l.dropWhile p = l := by
  rcases h with h | ⟨a, t, rfl, ha⟩
  · simp [h]
  · simp [List.dropWhile_cons, ha]

/-- `str.strip()` is idempotent. -/
theorem pyStrip_idem (l : List Char) : pyStrip (pyStrip l) = pyStrip l := by
  unfold pyStrip
  set p := isPySpace with hp
  set a := l.dropWhile p with hadef
  set y := a.reverse.dropWhile p with hydef
  have hyrev : y.reverse.reverse = y := List.reverse_reverse y
  have hyhead : y = [] ∨ ∃ b t, y = b :: t ∧ p b = false := by
    rcases dropWhile_head_not p a.reverse with h | ⟨b, t, h, hb⟩
    · exact Or.inl (hydef.trans h)
    · exact Or.inr ⟨b, t, hydef.trans h, hb⟩
  -- the first character of `y.reverse` (if any) is the first character of
  -- `a`, which fails `p` because `a` is already left-stripped
  have hsplit : a.reverse.takeWhile p ++ y = a.reverse := by
    rw [hydef]; exact List.takeWhile_append_dropWhile p a.reverse
  have ha2 : a = y.reverse ++ (a.reverse.takeWhile p).reverse := by
    have := congrArg List.reverse hsplit
    rw [List.reverse_append, List.reverse_reverse] at this
    exact this.symm
  have hyrevhead : y.reverse = [] ∨ ∃ b t, y.reverse = b :: t ∧ p b = false := by
    cases hcase : y.reverse with
    | nil => exact Or.inl rfl
    | cons b t =>
      refine Or.inr ⟨b, t, rfl, ?_⟩
      have haeq := ha2
      rw [hcase] at haeq
      simp only [List.cons_append] at haeq
      rcases dropWhile_head_not p l with h0 | ⟨a0, t0, h0, ha0⟩
      · rw [← hadef] at h0; rw [h0] at haeq; exact absurd haeq (by simp)
      · rw [← hadef] at h0
        rw [h0] at haeq
        have : a0 = b := (List.cons.injEq _ _ _ _ ▸ haeq).1
        rwa [this] at ha0
  rw [dropWhile_eq_self_of_head p y.reverse hyrevhead, hyrev,
    dropWhile_eq_self_of_head p y hyhead]

/-! ## Lemmas: the chunking loop -/

/-- Unfolding of one loop iteration. -/
theorem chunkLoop_succ (text : List Char) (cs ov : Int) (fuel : Nat) (start : Int) :
    chunkLoop text cs ov (fuel + 1) start =
      if start < (text.length : Int) then
        match chunkLoop text cs ov fuel (chunkStep text cs ov start).1 with
        | none => none
        | some rest =>
            some (if (chunkStep text cs ov start).2.isEmpty then rest
                  else (chunkStep text cs ov start).2 :: rest)
      else some [] := rfl

/-- If the loop diverges from the next window start, it diverges from this one. -/
theorem chunkLoop_none_step {text : List Char} {cs ov : Int} {fuel : Nat} {start : Int}
    (h1 : start < (text.length : Int))
    (h2 : chunkLoop text cs ov fuel (chunkStep text cs ov start).1 = none) :
    chunkLoop text cs ov (fuel + 1) start = none := by
  rw [chunkLoop_succ, if_pos h1, h2]

/-- Every chunk the loop emits is a non-empty stripped window. -/
theorem chunkLoop_sound (text : List Char) (cs ov : Int) :
    ∀ (fuel : Nat) (start : Int) (res : List (List Char)),
      chunkLoop text cs ov fuel start = some res →
      ∀ c ∈ res, pyStrip c = c ∧ c ≠ [] := by
  intro fuel
  induction fuel with
  | zero => intro start res h; exact absurd h (by simp [chunkLoop])
  | succ n ih =>
    intro start res h c hc
    rw [chunkLoop_succ] at h
    by_cases hlt : start < (text.length : Int)
    · rw [if_pos hlt] at h
      cases hrec : chunkLoop text cs ov n (chunkStep text cs ov start).1 with
      | none => rw [hrec] at h; exact absurd h (by simp)
      | some rest =>
        rw [hrec] at h
        have hres : res = if (chunkStep text cs ov start).2.isEmpty then rest
            else (chunkStep text cs ov start).2 :: rest := by
          injection h with h; exact h.symm
        by_cases hemp : (chunkStep text cs ov start).2.isEmpty
        · rw [hres, if_pos hemp] at hc
          exact ih _ rest hrec c hc
        · rw [hres, if_neg hemp] at hc
          rcases List.mem_cons.mp hc with hc | hc
          · constructor
            · rw [hc]; exact pyStrip_idem _
            · rw [hc]; simpa [List.isEmpty_iff] using hemp
          · exact ih _ rest hrec c hc
    · rw [if_neg hlt] at h
      injection h with h
      rw [← h] at hc
      exact absurd hc (by simp)

/-! ## Claims C3, C4, C5 -/

/-- C3: the claim states that for every configuration with
`0 ≤ overlap < chunk_size` the chunking loop terminates, the window start
strictly increasing on every iteration.  The code violates this: on
`cycleText` with `chunk_size = 10`, `overlap = 9` (a valid configuration),
the sentence-boundary snap sets `end = 7`, so `start` becomes `-2` and the
loop revisits the window starts `0, -2, -1` forever — `chunk_text` yields
no result no matter how many iterations it is allowed. -/
theorem chunk_text_diverges_on_valid_config :
    (0 : Int) ≤ 9 ∧ (9 : Int) < 10 ∧
      ∀ fuel : Nat, chunk_text cycleText 10 9 fuel = none := by
  refine ⟨by decide, by decide, ?_⟩
  have key : ∀ f : Nat, chunkLoop cycleText 10 9 f 0 = none ∧
      chunkLoop cycleText 10 9 f (-2) = none ∧ chunkLoop cycleText 10 9 f (-1) = none := by
    intro f
    induction f with
    | zero => exact ⟨rfl, rfl, rfl⟩
    | succ n ih =>
      have s0 : (chunkStep cycleText 10 9 0).1 = -2 := by decide
      have s2 : (chunkStep cycleText 10 9 (-2)).1 = -1 := by decide
      have s1 : (chunkStep cycleText 10 9 (-1)).1 = 0 := by decide
      refine ⟨?_, ?_, ?_⟩
      · exact chunkLoop_none_step (by decide) (by rw [s0]; exact ih.2.1)
      · exact chunkLoop_none_step (by decide) (by rw [s2]; exact ih.2.2)
      · exact chunkLoop_none_step (by decide) (by rw [s1]; exact ih.1)
  intro fuel
  unfold chunk_text
  rw [if_neg (by decide)]
  exact (key fuel).1

/-- C4: the claim states that `overlap ≥ chunk_size` fails with a
configuration error, raised by `chunk_text` or validated at its call
sites.  Neither `chunk_text` nor any call site validates the
configuration: with `chunk_size = overlap = 5` on a period-free text
longer than the chunk size, the window start never moves (`start = end -
overlap = start`), so instead of raising, the code silently loops
forever. -/
theorem chunk_text_overlap_eq_size_silently_diverges :
    ∀ fuel : Nat, chunk_text stuckText 5 5 fuel = none := by
  have key : ∀ f : Nat, chunkLoop stuckText 5 5 f 0 = none := by
    intro f
    induction f with
    | zero => rfl
    | succ n ih =>
      have s0 : (chunkStep stuckText 5 5 0).1 = 0 := by decide
      exact chunkLoop_none_step (by decide) (by rw [s0]; exact ih)
  intro fuel
  unfold chunk_text
  rw [if_neg (by decide)]
  exact key fuel

/-- C5 counterexample: the claim states that for every input text,
including texts of length at most `chunk_size`, every returned chunk is
trimmed and non-empty.  For the one-character text `" "` (which is at most
`chunk_size = 1000` long), `chunk_text` returns the raw text `[" "]`
untouched: the chunk is not equal to its own strip and strips to the
empty string, so it is neither trimmed nor non-empty after trimming. -/
theorem chunk_text_short_text_unstripped :
    chunk_text [' '] 1000 200 1 = some [[' ']] ∧
      ¬(pyStrip [' '] = [' '] ∧ [' '] ≠ ([] : List Char)) := by
  constructor
  · rfl
  · intro h
    exact absurd h.1 (by decide)

/-- C5 (amended): chunks produced by the sliding-window loop — i.e. for
texts strictly longer than `chunk_size` — are trimmed of leading and
trailing whitespace and non-empty, empty chunks being dropped; a text of
length at most `chunk_size`, however, is returned whole as a single chunk,
untrimmed and possibly empty. -/
theorem chunk_text_trimmed_nonempty :
    ∀ (text : List Char) (cs ov : Int) (fuel : Nat),
      ((text.length : Int) ≤ cs → chunk_text text cs ov fuel = some [text]) ∧
      (cs < (text.length : Int) →
        ∀ res, chunk_text text cs ov fuel = some res →
          ∀ c ∈ res, pyStrip c = c ∧ c ≠ []) := by
  intro text cs ov fuel
  constructor
  · intro h
    unfold chunk_text
    rw [if_pos h]
  · intro h res hres
    unfold chunk_text at hres
    rw [if_neg (by omega)] at hres
    exact chunkLoop_sound text cs ov fuel 0 res hres

/-- Witness for C5 (amended): on the 12-character text `"abcdefghijkl"`
with `chunk_size = 5 > overlap = 1`, the loop returns three chunks; the
first, `"abcde"`, is its own strip and non-empty. -/
theorem chunk_text_trimmed_nonempty_witness :
    pyStrip (String.toList "abcde") = String.toList "abcde" ∧
      String.toList "abcde" ≠ [] :=
  (chunk_text_trimmed_nonempty (String.toList "abcdefghijkl") 5 1 10).2 (by decide)
    [String.toList "abcde", String.toList "efghi", String.toList "ijkl"] (by decide)
    (String.toList "abcde") (by decide)

/-! ## Claims C1, C7 -/

/-- C1: the claim states that every row index outside `[0, len(chunks))`
— including FAISS's `-1` no-result sentinel — is dropped before mapping
indices to chunk texts.  The code filters only `idx < len(chunks)`
(line 114), so the sentinel `-1` passes the filter and, through Python's
negative indexing, selects the **last** chunk instead of being dropped:
with a loaded index over the chunk store `["chunk zero", "chunk one"]`
and a search returning row index `-1`, the result is `["chunk one"]`. -/
theorem retrieve_negative_index_selects_chunk :
    retrieve_similar_documents (some ()) ["chunk zero", "chunk one"]
      (.ok [-1]) = ["chunk one"] := by rfl

/-- C7: `retrieve_similar_documents` is fail-soft: whatever the load
state, the chunk store and the embed/search outcome, it returns a
non-empty list of strings — a single explanatory placeholder when the
index is not loaded, a single error string when embedding or search (or
the index mapping) raises, and a single `"No relevant documents found."`
placeholder when no valid result survives the filter. -/
theorem retrieve_fail_soft :
    ∀ (index : Option Unit) (chunks : List String)
      (outcome : Except String (List Int)),
      retrieve_similar_documents index chunks outcome ≠ [] ∧
      (index = none →
        retrieve_similar_documents index chunks outcome = [errNotLoaded]) ∧
      (∀ e, index.isSome → outcome = .error e →
        retrieve_similar_documents index chunks outcome = [errRetrieving e]) ∧
      (∀ ids, index.isSome → outcome = .ok ids → retrieveComp chunks ids = some [] →
        retrieve_similar_documents index chunks outcome = [noRelevantMsg]) ∧
      (∀ ids, index.isSome → outcome = .ok ids → retrieveComp chunks ids = none →
        retrieve_similar_documents index chunks outcome = [errRetrieving indexErrorMsg]) := by
  intro index chunks outcome
  cases index with
  | none =>
    refine ⟨by simp [retrieve_similar_documents], fun _ => rfl, ?_, ?_, ?_⟩
    · intro e h; exact absurd h (by simp)
    · intro ids h; exact absurd h (by simp)
    · intro ids h; exact absurd h (by simp)
  | some u =>
    cases outcome with
    | error e =>
      refine ⟨by simp [retrieve_similar_documents], by simp, ?_, ?_, ?_⟩
      · intro e' _ he; injection he with he; rw [he]; rfl
      · intro ids _ he; exact absurd he (by simp)
      · intro ids _ he; exact absurd he (by simp)
    | ok ids =>
      refine ⟨?_, by simp, ?_, ?_, ?_⟩
      · show (match retrieveComp chunks ids with
          | none => [errRetrieving indexErrorMsg]
          | some results => if results.isEmpty then [noRelevantMsg] else results) ≠ []
        cases hc : retrieveComp chunks ids with
        | none => simp
        | some results =>
          by_cases hres : results.isEmpty
          · simp [hres]
          · have hne : results ≠ [] := by simpa [List.isEmpty_iff] using hres
            simp [List.isEmpty_iff, hne]
      · intro e _ he; exact absurd he (by simp)
      · intro ids' _ he hc
        injection he with he
        rw [← he] at hc
        show (match retrieveComp chunks ids with
          | none => [errRetrieving indexErrorMsg]
          | some results => if results.isEmpty then [noRelevantMsg] else results) = _
        rw [hc]
        rfl
      · intro ids' _ he hc
        injection he with he
        rw [← he] at hc
        show (match retrieveComp chunks ids with
          | none => [errRetrieving indexErrorMsg]
          | some results => if results.isEmpty then [noRelevantMsg] else results) = _
        rw [hc]

/-- Witness for C7: querying with no index loaded returns exactly the
explanatory placeholder. -/
theorem retrieve_fail_soft_witness :
    retrieve_similar_documents none [] (.ok [0]) = [errNotLoaded] :=
  (retrieve_fail_soft none [] (.ok [0])).2.1 rfl

/-! ## Claim C9 -/

/-- C9: `generate_llm` returns a string for every prompt, mode and
completion outcome and never raises past the core boundary (in the
embedding, its result type is `String`, not `Except`): an invalid
configuration yields the configuration-error string, any exception `e`
of the completion call yields `"Error from LLM: " ++ e`, a `None`
message content yields the caught `AttributeError` of `None.strip()`
as an error string, and the success paths return the stripped answer. -/
theorem generate_llm_fail_soft :
    ∀ (client : Option Unit) (prompt mode : String)
      (call : String → String → Except String CompletionResponse),
      (client = none → generate_llm client prompt mode call = errConfigInvalid) ∧
      (∀ e, client.isSome → call (systemPromptFor mode) prompt = .error e →
        generate_llm client prompt mode call = errFromLLM e) ∧
      (∀ s, client.isSome → call (systemPromptFor mode) prompt = .ok (.nonstream (some s)) →
        generate_llm client prompt mode call = pyStripStr s) ∧
      (client.isSome → call (systemPromptFor mode) prompt = .ok (.nonstream none) →
        generate_llm client prompt mode call = errFromLLM noneStripError) ∧
      (∀ ds, client.isSome → call (systemPromptFor mode) prompt = .ok (.streamed ds) →
        generate_llm client prompt mode call = pyStripStr (String.join (ds.filterMap id))) := by
  intro client prompt mode call
  cases client with
  | none =>
    refine ⟨fun _ => rfl, ?_, ?_, ?_, ?_⟩
    · intro e h; exact absurd h (by simp)
    · intro s h; exact absurd h (by simp)
    · intro h; exact absurd h (by simp)
    · intro ds h; exact absurd h (by simp)
  | some u =>
    refine ⟨by simp, ?_, ?_, ?_, ?_⟩
    · intro e _ he
      show (match call (systemPromptFor mode) prompt with
        | .error e => errFromLLM e
        | .ok (.nonstream (some content)) => pyStripStr content
        | .ok (.nonstream none) => errFromLLM noneStripError
        | .ok (.streamed deltas) => pyStripStr (String.join (deltas.filterMap id))) = _
      rw [he]
    · intro s _ he
      show (match call (systemPromptFor mode) prompt with
        | .error e => errFromLLM e
        | .ok (.nonstream (some content)) => pyStripStr content
        | .ok (.nonstream none) => errFromLLM noneStripError
        | .ok (.streamed deltas) => pyStripStr (String.join (deltas.filterMap id))) = _
      rw [he]
    · intro _ he
      show (match call (systemPromptFor mode) prompt with
        | .error e => errFromLLM e
        | .ok (.nonstream (some content)) => pyStripStr content
        | .ok (.nonstream none) => errFromLLM noneStripError
        | .ok (.streamed deltas) => pyStripStr (String.join (deltas.filterMap id))) = _
      rw [he]
    · intro ds _ he
      show (match call (systemPromptFor mode) prompt with
        | .error e => errFromLLM e
        | .ok (.nonstream (some content)) => pyStripStr content
        | .ok (.nonstream none) => errFromLLM noneStripError
        | .ok (.streamed deltas) => pyStripStr (String.join (deltas.filterMap id))) = _
      rw [he]

/-- Witness for C9: a failing completion call is converted into a
human-readable error string. -/
theorem generate_llm_fail_soft_witness :
    generate_llm (some ()) "q" "concise" (fun _ _ => .error "connection reset") =
      errFromLLM "connection reset" :=
  (generate_llm_fail_soft (some ()) "q" "concise"
    (fun _ _ => .error "connection reset")).2.1 "connection reset" rfl rfl

/-! ## Claim C6 -/

/-- C6: calling `build_index` with zero chunks, zero embeddings, or with
`len(chunks) ≠ len(embeddings)` raises a `ValueError` before anything is
written: the result is an `Except.error` carrying no `BuildOutput`, so no
index or chunk-store artifact (not even a partial one) is produced. -/
theorem build_index_validation :
    ∀ (α : Type) (chunks : List (List Char)) (embeddings : List (List α)),
      chunks = [] ∨ embeddings = [] ∨ chunks.length ≠ embeddings.length →
      ∃ msg, build_index chunks embeddings = .error msg ∧
        ∀ out : BuildOutput α, build_index chunks embeddings ≠ .ok out := by
  intro α chunks embeddings h
  by_cases hemp : chunks.isEmpty || embeddings.isEmpty
  · refine ⟨errNoChunks, ?_, ?_⟩
    · unfold build_index; rw [if_pos hemp]
    · intro out hcontra
      unfold build_index at hcontra
      rw [if_pos hemp] at hcontra
      exact absurd hcontra (by simp)
  · have hne : chunks.length ≠ embeddings.length := by
      rcases h with h | h | h
      · exact absurd hemp (by simp [h])
      · exact absurd hemp (by simp [h])
      · exact h
    refine ⟨errMismatch chunks.length embeddings.length, ?_, ?_⟩
    · unfold build_index; rw [if_neg hemp, if_pos hne]
    · intro out hcontra
      unfold build_index at hcontra
      rw [if_neg hemp, if_pos hne] at hcontra
      exact absurd hcontra (by simp)

/-- Witness for C6: building from one chunk and zero embeddings fails
with a validation error and produces no artifacts. -/
theorem build_index_validation_witness :
    ∃ msg, build_index [String.toList "c"] ([] : List (List Nat)) = .error msg ∧
      ∀ out : BuildOutput Nat,
        build_index [String.toList "c"] ([] : List (List Nat)) ≠ .ok out :=
  build_index_validation Nat [String.toList "c"] [] (Or.inr (Or.inl rfl))

/-! ## Claim C8 -/

/-- Hex digits are never a newline. -/
theorem hexDigit_ne_newline : ∀ m : Nat, m < 16 → hexDigit m ≠ '\n' := by decide

/-- `\uXXXX` escapes contain no raw newline. -/
theorem newline_not_mem_uEscape (n : Nat) : '\n' ∉ uEscape n := by
  intro h
  simp only [uEscape, List.mem_cons, List.not_mem_nil, or_false] at h
  rcases h with h | h | h | h | h | h
  · exact absurd h (by decide)
  · exact absurd h (by decide)
  · exact hexDigit_ne_newline _ (Nat.mod_lt _ (by norm_num)) h.symm
  · exact hexDigit_ne_newline _ (Nat.mod_lt _ (by norm_num)) h.symm
  · exact hexDigit_ne_newline _ (Nat.mod_lt _ (by norm_num)) h.symm
  · exact hexDigit_ne_newline _ (Nat.mod_lt _ (by norm_num)) h.symm

/-- The `json.dumps` escape of any character contains no raw newline
(in particular, a newline inside a chunk is emitted as `\n`). -/
theorem newline_not_mem_jsonEscapeChar (c : Char) : '\n' ∉ jsonEscapeChar c := by
  unfold jsonEscapeChar
  split_ifs with h1 h2 h3 h4 h5 h6 h7 h8 h9
  · decide
  · decide
  · decide
  · decide
  · decide
  · decide
  · decide
  · exact newline_not_mem_uEscape _
  · intro h
    rcases List.mem_append.mp h with h | h
    · exact newline_not_mem_uEscape _ h
    · exact newline_not_mem_uEscape _ h
  · intro h
    rcases List.mem_singleton.mp h with rfl
    simp only [Bool.or_eq_true, decide_eq_true_eq, not_or, not_lt] at h8
    have : ('\n').toNat = 10 := by decide
    omega

/-- A serialized chunk-store line contains no raw newline. -/
theorem newline_not_mem_jsonLine (s : List Char) : '\n' ∉ jsonDumpsTextObj s := by
  intro h
  unfold jsonDumpsTextObj at h
  rcases List.mem_cons.mp h with h | h
  · exact absurd h (by decide)
  rcases List.mem_append.mp h with h | h
  · rcases List.mem_append.mp h with h | h
    · exact absurd h (by decide)
    · rcases List.mem_flatten.mp h with ⟨l, hl, hmem⟩
      rcases List.mem_map.mp hl with ⟨ch, _, rfl⟩
      exact newline_not_mem_jsonEscapeChar ch hmem
  · exact absurd h (by decide)

/-- Splitting after one newline-free line. -/
theorem splitLines_append (a rest : List Char) (ha : '\n' ∉ a) :
    splitLines (a ++ '\n' :: rest) = a :: splitLines rest := by
  induction a with
  | nil => simp [splitLines]
  | cons c a' ih =>
    have hc : c ≠ '\n' := fun hceq => ha (hceq ▸ List.mem_cons_self c a')
    have ha' : '\n' ∉ a' := fun hmem => ha (List.mem_cons_of_mem c hmem)
    have step : splitLines (c :: (a' ++ '\n' :: rest)) =
        (if c = '\n' then [] :: splitLines (a' ++ '\n' :: rest)
         else
           match splitLines (a' ++ '\n' :: rest) with
           | [] => [[c]]
           | l :: ls => (c :: l) :: ls) := rfl
    rw [List.cons_append, step, if_neg hc, ih ha']

/-- The chunk-store bytes split at newlines into exactly one serialized
line per chunk, in input order (plus the empty tail after the final
newline). -/
theorem splitLines_chunksJsonl (chunks : List (List Char)) :
    splitLines (chunksJsonl chunks) = chunks.map jsonDumpsTextObj ++ [[]] := by
  induction chunks with
  | nil => rfl
  | cons c cs ih =>
    show splitLines ((jsonDumpsTextObj c ++ ['\n']) ++ chunksJsonl cs) = _
    rw [List.append_assoc, List.singleton_append,
      splitLines_append _ _ (newline_not_mem_jsonLine c), ih]
    rfl

/-- A valid build succeeds and serializes the chunk store. -/
theorem build_index_ok (α : Type) (chunks : List (List Char))
    (e : List (List α)) (hc : chunks ≠ []) (he : e ≠ [])
    (hlen : chunks.length = e.length)
    (hdim : ∀ v ∈ e, v.length = (e.headD []).length) :
    build_index chunks e =
      .ok { indexDim := (e.headD []).length, indexRows := e,
            chunksFileBytes := chunksJsonl chunks } := by
  unfold build_index
  rw [if_neg (by simp [List.isEmpty_iff, hc, he]), if_neg (by omega)]
  rw [if_neg ?_]
  intro hany
  rcases List.any_eq_true.mp hany with ⟨v, hv, hne⟩
  exact absurd (hdim v hv) (by simpa using hne)

/-- C8: building twice from the same chunk input produces byte-identical
chunk-store contents — the serialized chunk store is a deterministic
function of the chunks alone (the embeddings never influence it), and its
lines are exactly the serializations of the chunks in input order, so row
order and row count coincide between the two runs. -/
theorem build_index_chunk_store_deterministic :
    ∀ (α β : Type) (chunks : List (List Char))
      (e1 : List (List α)) (e2 : List (List β)),
      chunks ≠ [] → e1 ≠ [] → e2 ≠ [] →
      chunks.length = e1.length → chunks.length = e2.length →
      (∀ v ∈ e1, v.length = (e1.headD []).length) →
      (∀ v ∈ e2, v.length = (e2.headD []).length) →
      ∃ out1 out2,
        build_index chunks e1 = .ok out1 ∧ build_index chunks e2 = .ok out2 ∧
        out1.chunksFileBytes = out2.chunksFileBytes ∧
        splitLines out1.chunksFileBytes = chunks.map jsonDumpsTextObj ++ [[]] := by
  intro α β chunks e1 e2 hc h1 h2 hl1 hl2 hd1 hd2
  refine ⟨_, _, build_index_ok α chunks e1 hc h1 hl1 hd1,
    build_index_ok β chunks e2 hc h2 hl2 hd2, rfl, ?_⟩
  exact splitLines_chunksJsonl chunks

/-- Witness for C8: a one-chunk build over two different embedding inputs
yields the same chunk-store bytes, one line per chunk. -/
theorem build_index_chunk_store_deterministic_witness :
    ∃ out1 out2,
      build_index [String.toList "a"] ([[1]] : List (List Nat)) = .ok out1 ∧
      build_index [String.toList "a"] ([[2, 3]] : List (List Int)) = .ok out2 ∧
      out1.chunksFileBytes = out2.chunksFileBytes ∧
      splitLines out1.chunksFileBytes =
        [String.toList "a"].map jsonDumpsTextObj ++ [[]] :=
  build_index_chunk_store_deterministic Nat Int [String.toList "a"] [[1]] [[2, 3]]
    (by decide) (by decide) (by decide) (by decide) (by decide)
    (by decide) (by decide)

/-! ## Lemmas: Python dictionaries -/

namespace PyDict

variable {V : Type}

theorem keys_cons (k : String) (v : V) (t : List (String × V)) :
    keys ((k, v) :: t) = k :: keys t := rfl

theorem keys_append (d e : List (String × V)) : keys (d ++ e) = keys d ++ keys e :=
  List.map_append _ _ _

/-- Updating a present key leaves the key list unchanged. -/
theorem keys_insert_mem (d : List (String × V)) (k : String) (v : V)
    (h : k ∈ keys d) : keys (insert d k v) = keys d := by
  induction d with
  | nil => exact absurd h (by simp [keys])
  | cons p t ih =>
    obtain ⟨k', v'⟩ := p
    by_cases hk : k' = k
    · subst hk; simp [insert, keys]
    · have hmem : k ∈ keys t := by
        rw [keys_cons] at h
        rcases List.mem_cons.mp h with h | h
        · exact absurd h.symm hk
        · exact h
      rw [show insert ((k', v') :: t) k v = (k', v') :: insert t k v from by
          simp [insert, hk],
        keys_cons, keys_cons, ih hmem]

/-- Inserting a fresh key appends it at the end. -/
theorem insert_not_mem (d : List (String × V)) (k : String) (v : V)
    (h : k ∉ keys d) : insert d k v = d ++ [(k, v)] := by
  induction d with
  | nil => rfl
  | cons p t ih =>
    obtain ⟨k', v'⟩ := p
    have hk : k' ≠ k := fun he =>
      h (by rw [keys_cons, he]; exact List.mem_cons_self _ _)
    have ht : k ∉ keys t := fun hm =>
      h (by rw [keys_cons]; exact List.mem_cons_of_mem _ hm)
    rw [show insert ((k', v') :: t) k v = (k', v') :: insert t k v from by
        simp [insert, hk],
      ih ht, List.cons_append]

theorem mem_keys_insert (d : List (String × V)) (k : String) (v : V) (a : String) :
    a ∈ keys (insert d k v) ↔ a = k ∨ a ∈ keys d := by
  induction d with
  | nil => simp [insert, keys]
  | cons p t ih =>
    obtain ⟨k', v'⟩ := p
    by_cases hk : k' = k
    · subst hk
      rw [show insert ((k', v') :: t) k' v = (k', v) :: t from by simp [insert],
        keys_cons, keys_cons]
      simp only [List.mem_cons]
      tauto
    · rw [show insert ((k', v') :: t) k v = (k', v') :: insert t k v from by
          simp [insert, hk],
        keys_cons, keys_cons]
      simp only [List.mem_cons, ih]
      tauto

/-- Entries of `insert` with a different key were already present. -/
theorem mem_of_mem_insert_ne (d : List (String × V)) (k : String) (v : V)
    (p : String × V) : p ∈ insert d k v → p.1 ≠ k → p ∈ d := by
  induction d with
  | nil =>
    intro h hne
    rcases List.mem_singleton.mp h with rfl
    exact absurd rfl hne
  | cons q t ih =>
    obtain ⟨k', v'⟩ := q
    intro h hne
    by_cases hk : k' = k
    · subst hk
      rw [show insert ((k', v') :: t) k' v = (k', v) :: t from by simp [insert]] at h
      rcases List.mem_cons.mp h with rfl | h
      · exact absurd rfl hne
      · exact List.mem_cons_of_mem _ h
    · rw [show insert ((k', v') :: t) k v = (k', v') :: insert t k v from by
          simp [insert, hk]] at h
      rcases List.mem_cons.mp h with rfl | h
      · exact List.mem_cons_self _ _
      · exact List.mem_cons_of_mem _ (ih h hne)

theorem lookup_insert_self (d : List (String × V)) (k : String) (v : V) :
    lookup (insert d k v) k = some v := by
  induction d with
  | nil => simp [insert, lookup]
  | cons p t ih =>
    obtain ⟨k', v'⟩ := p
    by_cases hk : k' = k
    · subst hk; simp [insert, lookup]
    · simp [insert, lookup, hk, ih]

/-- `erase` commutes with having the same key lists. -/
theorem keys_erase_congr (d1 : List (String × V)) :
    ∀ {W : Type} (d2 : List (String × W)) (k : String), keys d1 = keys d2 →
      keys (erase d1 k) = keys (erase d2 k) := by
  induction d1 with
  | nil =>
    intro W d2 k h
    have : d2 = [] := by
      cases d2 with
      | nil => rfl
      | cons p t => exact absurd h.symm (by simp [keys])
    rw [this]
    rfl
  | cons p t1 ih =>
    intro W d2 k h
    obtain ⟨k1, v1⟩ := p
    cases d2 with
    | nil => exact absurd h (by simp [keys])
    | cons q t2 =>
      obtain ⟨k2, v2⟩ := q
      rw [keys_cons, keys_cons] at h
      have hk : k1 = k2 := (List.cons.injEq _ _ _ _ ▸ h).1
      have ht : keys t1 = keys t2 := (List.cons.injEq _ _ _ _ ▸ h).2
      subst hk
      by_cases hke : k1 = k
      · simp [erase, hke, ht]
      · rw [show erase ((k1, v1) :: t1) k = (k1, v1) :: erase t1 k from by
            simp [erase, hke],
          show erase ((k1, v2) :: t2) k = (k1, v2) :: erase t2 k from by
            simp [erase, hke],
          keys_cons, keys_cons, ih t2 k ht]

theorem mem_of_mem_erase (d : List (String × V)) (k : String) (p : String × V)
    (h : p ∈ erase d k) : p ∈ d := by
  induction d with
  | nil => exact absurd h (by simp [erase])
  | cons q t ih =>
    obtain ⟨k', v'⟩ := q
    by_cases hk : k' = k
    · rw [show erase ((k', v') :: t) k = t from by simp [erase, hk]] at h
      exact List.mem_cons_of_mem _ h
    · rw [show erase ((k', v') :: t) k = (k', v') :: erase t k from by simp [erase, hk]] at h
      rcases List.mem_cons.mp h with h | h
      · exact h ▸ List.mem_cons_self _ _
      · exact List.mem_cons_of_mem _ (ih h)

theorem mem_keys_of_mem_keys_erase (d : List (String × V)) (k a : String)
    (h : a ∈ keys (erase d k)) : a ∈ keys d := by
  rcases List.mem_map.mp h with ⟨p, hp, rfl⟩
  exact List.mem_map.mpr ⟨p, mem_of_mem_erase d k p hp, rfl⟩

/-- With distinct keys, the erased key is gone. -/
theorem not_mem_keys_erase_self (d : List (String × V)) (k : String)
    (hnd : (keys d).Nodup) : k ∉ keys (erase d k) := by
  induction d with
  | nil => simp [erase, keys]
  | cons p t ih =>
    obtain ⟨k', v'⟩ := p
    rw [keys_cons, List.nodup_cons] at hnd
    by_cases hk : k' = k
    · subst hk
      rw [show erase ((k', v') :: t) k' = t from by simp [erase]]
      exact fun hm => hnd.1 hm
    · rw [show erase ((k', v') :: t) k = (k', v') :: erase t k from by simp [erase, hk],
        keys_cons]
      intro hm
      rcases List.mem_cons.mp hm with hm | hm
      · exact hk hm.symm
      · exact ih hnd.2 hm

theorem nodup_keys_erase (d : List (String × V)) (k : String)
    (hnd : (keys d).Nodup) : (keys (erase d k)).Nodup := by
  induction d with
  | nil => simp [erase, keys]
  | cons p t ih =>
    obtain ⟨k', v'⟩ := p
    rw [keys_cons, List.nodup_cons] at hnd
    by_cases hk : k' = k
    · rw [show erase ((k', v') :: t) k = t from by simp [erase, hk]]
      exact hnd.2
    · rw [show erase ((k', v') :: t) k = (k', v') :: erase t k from by simp [erase, hk],
        keys_cons, List.nodup_cons]
      exact ⟨fun hm => hnd.1 (mem_keys_of_mem_keys_erase t k k' hm), ih hnd.2⟩

theorem length_erase_of_mem (d : List (String × V)) (k : String)
    (h : k ∈ keys d) : (erase d k).length + 1 = d.length := by
  induction d with
  | nil => exact absurd h (by simp [keys])
  | cons p t ih =>
    obtain ⟨k', v'⟩ := p
    by_cases hk : k' = k
    · simp [erase, hk]
    · have hmem : k ∈ keys t := by
        rw [keys_cons] at h
        rcases List.mem_cons.mp h with h | h
        · exact absurd h.symm hk
        · exact h
      simp [erase, hk, ← ih hmem]

theorem length_keys (d : List (String × V)) : (keys d).length = d.length :=
  List.length_map _ _

end PyDict

/-! ## Lemmas: `oldestKey` and `stamps` -/

theorem foldl_pickMin_some (ts : List (String × Nat)) :
    ∀ p : String × Nat, ∃ r, ts.foldl pickMin (some p) = some r ∧ (r = p ∨ r ∈ ts) := by
  induction ts with
  | nil => exact fun p => ⟨p, rfl, Or.inl rfl⟩
  | cons q t ih =>
    intro p
    show ∃ r, t.foldl pickMin (pickMin (some p) q) = some r ∧ _
    by_cases hq : q.2 < p.2
    · rw [show pickMin (some p) q = some q from by simp [pickMin, hq]]
      obtain ⟨r, hr, hmem⟩ := ih q
      refine ⟨r, hr, ?_⟩
      rcases hmem with hmem | hmem
      · exact Or.inr (hmem ▸ List.mem_cons_self _ _)
      · exact Or.inr (List.mem_cons_of_mem _ hmem)
    · rw [show pickMin (some p) q = some p from by simp [pickMin, hq]]
      obtain ⟨r, hr, hmem⟩ := ih p
      refine ⟨r, hr, ?_⟩
      rcases hmem with hmem | hmem
      · exact Or.inl hmem
      · exact Or.inr (List.mem_cons_of_mem _ hmem)

theorem oldestKey_cons (p : String × Nat) (ts : List (String × Nat)) :
    oldestKey (p :: ts) = (ts.foldl pickMin (some p)).map Prod.fst := rfl

/-- A non-empty access-time dictionary has an oldest key, and it is one
of its keys. -/
theorem oldestKey_mem_of_ne_nil (ts : List (String × Nat)) (h : ts ≠ []) :
    ∃ k, oldestKey ts = some k ∧ k ∈ PyDict.keys ts := by
  cases ts with
  | nil => exact absurd rfl h
  | cons p t =>
    obtain ⟨r, hr, hmem⟩ := foldl_pickMin_some t p
    refine ⟨r.1, ?_, ?_⟩
    · rw [oldestKey_cons, hr]; rfl
    · rcases hmem with hmem | hmem
      · rw [hmem]; exact List.mem_map.mpr ⟨p, List.mem_cons_self _ _, rfl⟩
      · exact List.mem_map.mpr ⟨r, List.mem_cons_of_mem _ hmem, rfl⟩

/-- The fold keeps an accumulator that is strictly older than everything
still to be scanned. -/
theorem foldl_pickMin_stay (ts : List (String × Nat)) (k : String) (t0 : Nat)
    (h : ∀ p ∈ ts, ¬ p.2 < t0) : ts.foldl pickMin (some (k, t0)) = some (k, t0) := by
  induction ts with
  | nil => rfl
  | cons q t ih =>
    show t.foldl pickMin (pickMin (some (k, t0)) q) = _
    rw [show pickMin (some (k, t0)) q = some (k, t0) from by
      simp [pickMin, h q (List.mem_cons_self _ _)]]
    exact ih fun p hp => h p (List.mem_cons_of_mem _ hp)

theorem stamps_ge (ks : List String) : ∀ (n : Nat) (p : String × Nat),
    p ∈ stamps n ks → n ≤ p.2 := by
  induction ks with
  | nil => intro n p hp; exact absurd hp (by simp [stamps])
  | cons k t ih =>
    intro n p hp
    rcases List.mem_cons.mp hp with hp | hp
    · rw [hp]
    · exact Nat.le_of_succ_le (ih (n + 1) p hp)

theorem keys_stamps (ks : List String) : ∀ n, PyDict.keys (stamps n ks) = ks := by
  induction ks with
  | nil => intro n; rfl
  | cons k t ih =>
    intro n
    rw [show stamps n (k :: t) = (k, n) :: stamps (n + 1) t from rfl,
      PyDict.keys_cons, ih (n + 1)]

/-- The first key stamped is the oldest. -/
theorem oldestKey_stamps_cons (k : String) (ks : List String) (n : Nat) :
    oldestKey (stamps n (k :: ks)) = some k := by
  show oldestKey ((k, n) :: stamps (n + 1) ks) = some k
  rw [oldestKey_cons, foldl_pickMin_stay _ k n fun p hp =>
    Nat.not_lt.mpr (Nat.le_of_succ_le (stamps_ge ks (n + 1) p hp))]
  rfl

/-! ## Lemmas: cache operations and the C10 invariant -/

theorem mem_keys_of_lookup {V : Type} (d : List (String × V)) (k : String) (v : V) :
    PyDict.lookup d k = some v → k ∈ PyDict.keys d := by
  induction d with
  | nil => intro h; exact absurd h (by simp [PyDict.lookup])
  | cons p t ih =>
    obtain ⟨k', v'⟩ := p
    intro h
    by_cases hk : k' = k
    · rw [PyDict.keys_cons, hk]; exact List.mem_cons_self _ _
    · rw [show PyDict.lookup ((k', v') :: t) k = PyDict.lookup t k from by
          simp [PyDict.lookup, hk]] at h
      exact List.mem_cons_of_mem _ (ih h)

theorem length_insert_mem {V : Type} (d : List (String × V)) (k : String) (v : V)
    (h : k ∈ PyDict.keys d) : (PyDict.insert d k v).length = d.length := by
  have := congrArg List.length (PyDict.keys_insert_mem d k v h)
  rwa [PyDict.length_keys, PyDict.length_keys] at this

theorem length_insert_not_mem {V : Type} (d : List (String × V)) (k : String) (v : V)
    (h : k ∉ PyDict.keys d) : (PyDict.insert d k v).length = d.length + 1 := by
  rw [PyDict.insert_not_mem d k v h]
  simp

theorem nodup_append_single (l : List String) (k : String) (hnd : l.Nodup)
    (hk : k ∉ l) : (l ++ [k]).Nodup := by
  rw [List.nodup_append]
  exact ⟨hnd, List.nodup_singleton k, fun a ha hb => by
    rw [List.mem_singleton.mp hb] at ha; exact hk ha⟩

theorem runOps_append {V : Type} (c : Cache V) (xs ys : List (CacheOp V)) :
    runOps c (xs ++ ys) =
      match runOps c xs with
      | none => none
      | some c' => runOps c' ys := by
  induction xs generalizing c with
  | nil => rfl
  | cons op t ih =>
    show (match applyOp c op with
      | none => none
      | some c' => runOps c' (t ++ ys)) =
      (match (match applyOp c op with
        | none => none
        | some c' => runOps c' t) with
      | none => none
      | some c' => runOps c' ys)
    cases applyOp c op with
    | none => rfl
    | some c' => exact ih c'

/-- One cache operation never raises (with `max_size ≥ 1`) and preserves
the C10 invariant: equal key lists, distinct keys, bounded size. -/
theorem applyOp_preserves {V : Type} (c : Cache V) (op : CacheOp V)
    (hm : 1 ≤ c.max_size)
    (hkeys : PyDict.keys c.cache = PyDict.keys c.access_times)
    (hnd : (PyDict.keys c.cache).Nodup)
    (hlen : c.cache.length ≤ c.max_size) :
    ∃ c', applyOp c op = some c' ∧ c'.max_size = c.max_size ∧
      PyDict.keys c'.cache = PyDict.keys c'.access_times ∧
      (PyDict.keys c'.cache).Nodup ∧ c'.cache.length ≤ c.max_size := by
  cases op with
  | clear =>
    refine ⟨c.clear, rfl, rfl, rfl, ?_, ?_⟩
    · show (PyDict.keys ([] : List (String × V))).Nodup
      exact List.nodup_nil
    · show ([] : List (String × V)).length ≤ c.max_size
      simp
  | get k =>
    cases hl : PyDict.lookup c.cache k with
    | none =>
      refine ⟨c, ?_, rfl, hkeys, hnd, hlen⟩
      show some (c.get k).2 = some c
      unfold Cache.get
      rw [hl]
    | some v =>
      have hkc : k ∈ PyDict.keys c.cache := mem_keys_of_lookup _ _ _ hl
      have hka : k ∈ PyDict.keys c.access_times := hkeys ▸ hkc
      refine ⟨{ c with
          access_times := PyDict.insert c.access_times k c.now
          now := c.now + 1 }, ?_, rfl, ?_, hnd, hlen⟩
      · show some (c.get k).2 = some _
        unfold Cache.get
        rw [hl]
      · show PyDict.keys c.cache = PyDict.keys (PyDict.insert c.access_times k c.now)
        rw [PyDict.keys_insert_mem _ _ _ hka, hkeys]
  | set k v =>
    by_cases hcap : c.max_size ≤ c.cache.length
    · have hlen_eq : c.cache.length = c.max_size := Nat.le_antisymm hlen hcap
      have hat_ne : c.access_times ≠ [] := by
        intro h0
        have h1 : PyDict.keys c.cache = [] := by rw [hkeys, h0]; rfl
        have h2 : c.cache.length = 0 := by
          rw [← PyDict.length_keys, h1]
          rfl
        omega
      obtain ⟨old, hold, holdmem⟩ := oldestKey_mem_of_ne_nil _ hat_ne
      have holdc : old ∈ PyDict.keys c.cache := hkeys ▸ holdmem
      have E : PyDict.keys (PyDict.erase c.cache old) =
          PyDict.keys (PyDict.erase c.access_times old) :=
        PyDict.keys_erase_congr c.cache c.access_times old hkeys
      have hndE : (PyDict.keys (PyDict.erase c.cache old)).Nodup :=
        PyDict.nodup_keys_erase _ _ hnd
      have hlenE : (PyDict.erase c.cache old).length + 1 = c.cache.length :=
        PyDict.length_erase_of_mem _ _ holdc
      refine ⟨{ c with
          cache := PyDict.insert (PyDict.erase c.cache old) k v
          access_times := PyDict.insert (PyDict.erase c.access_times old) k c.now
          now := c.now + 1 }, ?_, rfl, ?_, ?_, ?_⟩
      · show c.set k v = some _
        unfold Cache.set
        rw [if_pos hcap, hold]
      · show PyDict.keys (PyDict.insert (PyDict.erase c.cache old) k v) =
          PyDict.keys (PyDict.insert (PyDict.erase c.access_times old) k c.now)
        by_cases hkm : k ∈ PyDict.keys (PyDict.erase c.cache old)
        · rw [PyDict.keys_insert_mem _ _ _ hkm, PyDict.keys_insert_mem _ _ _ (E ▸ hkm), E]
        · rw [PyDict.insert_not_mem _ _ _ hkm, PyDict.insert_not_mem _ _ _ (E ▸ hkm),
            PyDict.keys_append, PyDict.keys_append, E]
          rfl
      · show (PyDict.keys (PyDict.insert (PyDict.erase c.cache old) k v)).Nodup
        by_cases hkm : k ∈ PyDict.keys (PyDict.erase c.cache old)
        · rw [PyDict.keys_insert_mem _ _ _ hkm]; exact hndE
        · rw [PyDict.insert_not_mem _ _ _ hkm, PyDict.keys_append]
          exact nodup_append_single _ _ hndE hkm
      · show (PyDict.insert (PyDict.erase c.cache old) k v).length ≤ c.max_size
        by_cases hkm : k ∈ PyDict.keys (PyDict.erase c.cache old)
        · rw [length_insert_mem _ _ _ hkm]; omega
        · rw [length_insert_not_mem _ _ _ hkm]; omega
    · refine ⟨{ c with
          cache := PyDict.insert c.cache k v
          access_times := PyDict.insert c.access_times k c.now
          now := c.now + 1 }, ?_, rfl, ?_, ?_, ?_⟩
      · show c.set k v = some _
        unfold Cache.set
        rw [if_neg hcap]
      · show PyDict.keys (PyDict.insert c.cache k v) =
          PyDict.keys (PyDict.insert c.access_times k c.now)
        by_cases hkm : k ∈ PyDict.keys c.cache
        · rw [PyDict.keys_insert_mem _ _ _ hkm,
            PyDict.keys_insert_mem _ _ _ (hkeys ▸ hkm), hkeys]
        · rw [PyDict.insert_not_mem _ _ _ hkm, PyDict.insert_not_mem _ _ _ (hkeys ▸ hkm),
            PyDict.keys_append, PyDict.keys_append, hkeys]
          rfl
      · show (PyDict.keys (PyDict.insert c.cache k v)).Nodup
        by_cases hkm : k ∈ PyDict.keys c.cache
        · rw [PyDict.keys_insert_mem _ _ _ hkm]; exact hnd
        · rw [PyDict.insert_not_mem _ _ _ hkm, PyDict.keys_append]
          exact nodup_append_single _ _ hnd hkm
      · show (PyDict.insert c.cache k v).length ≤ c.max_size
        by_cases hkm : k ∈ PyDict.keys c.cache
        · rw [length_insert_mem _ _ _ hkm]; omega
        · rw [length_insert_not_mem _ _ _ hkm]; omega

/-- Running any operation sequence preserves the invariant. -/
theorem runOps_preserves {V : Type} :
    ∀ (ops : List (CacheOp V)) (c : Cache V), 1 ≤ c.max_size →
      PyDict.keys c.cache = PyDict.keys c.access_times →
      (PyDict.keys c.cache).Nodup →
      c.cache.length ≤ c.max_size →
      ∃ c', runOps c ops = some c' ∧ c'.max_size = c.max_size ∧
        PyDict.keys c'.cache = PyDict.keys c'.access_times ∧
        (PyDict.keys c'.cache).Nodup ∧ c'.cache.length ≤ c.max_size := by
  intro ops
  induction ops with
  | nil => intro c _ hkeys hnd hlen; exact ⟨c, rfl, rfl, hkeys, hnd, hlen⟩
  | cons op t ih =>
    intro c hm hkeys hnd hlen
    obtain ⟨c1, h1, hms, hk1, hn1, hl1⟩ := applyOp_preserves c op hm hkeys hnd hlen
    obtain ⟨c', h', hms', hk', hn', hl'⟩ :=
      ih c1 (hms ▸ hm) hk1 hn1 (hms ▸ hl1)
    refine ⟨c', ?_, hms ▸ hms', hk', hn', hms ▸ hl'⟩
    show (match applyOp c op with
      | none => none
      | some c2 => runOps c2 t) = some c'
    rw [h1]
    exact h'

/-- Filling a cache with fresh distinct keys (within capacity) appends
them in order, stamping consecutive access times. -/
theorem runOps_setsOf_fill {V : Type} :
    ∀ (l : List (String × V)) (c : Cache V),
      (PyDict.keys l).Nodup →
      (∀ j ∈ PyDict.keys l, j ∉ PyDict.keys c.cache) →
      PyDict.keys c.cache = PyDict.keys c.access_times →
      c.cache.length + l.length ≤ c.max_size →
      runOps c (setsOf l) = some
        { max_size := c.max_size
          cache := c.cache ++ l
          access_times := c.access_times ++ stamps c.now (PyDict.keys l)
          now := c.now + l.length } := by
  intro l
  induction l with
  | nil =>
    intro c _ _ _ _
    show some c = _
    rw [show stamps c.now (PyDict.keys ([] : List (String × V))) = [] from rfl]
    simp
  | cons p t ih =>
    obtain ⟨k, v⟩ := p
    intro c hnd hdisj hkeys hlen
    have hkt : k ∉ PyDict.keys t := by
      rw [PyDict.keys_cons, List.nodup_cons] at hnd
      exact hnd.1
    have hndt : (PyDict.keys t).Nodup := by
      rw [PyDict.keys_cons, List.nodup_cons] at hnd
      exact hnd.2
    have hkc : k ∉ PyDict.keys c.cache :=
      hdisj k (by rw [PyDict.keys_cons]; exact List.mem_cons_self _ _)
    have hka : k ∉ PyDict.keys c.access_times := hkeys ▸ hkc
    have hlt : ¬ c.max_size ≤ c.cache.length := by
      have : ((k, v) :: t).length = t.length + 1 := rfl
      omega
    have hstep : applyOp c (CacheOp.set k v) = some
        { c with
          cache := c.cache ++ [(k, v)]
          access_times := c.access_times ++ [(k, c.now)]
          now := c.now + 1 } := by
      show c.set k v = _
      unfold Cache.set
      rw [if_neg hlt, PyDict.insert_not_mem _ _ _ hkc, PyDict.insert_not_mem _ _ _ hka]
    have hih := ih
      { c with
        cache := c.cache ++ [(k, v)]
        access_times := c.access_times ++ [(k, c.now)]
        now := c.now + 1 }
      hndt
      (by
        intro j hj
        rw [show ({ c with
            cache := c.cache ++ [(k, v)]
            access_times := c.access_times ++ [(k, c.now)]
            now := c.now + 1 } : Cache V).cache = c.cache ++ [(k, v)] from rfl,
          PyDict.keys_append]
        intro hmem
        rcases List.mem_append.mp hmem with hmem | hmem
        · exact hdisj j (by rw [PyDict.keys_cons]; exact List.mem_cons_of_mem _ hj) hmem
        · rcases List.mem_singleton.mp (show j ∈ [k] from hmem) with rfl
          exact hkt hj)
      (by
        show PyDict.keys (c.cache ++ [(k, v)]) = PyDict.keys (c.access_times ++ [(k, c.now)])
        rw [PyDict.keys_append, PyDict.keys_append, hkeys]
        rfl)
      (by
        show (c.cache ++ [(k, v)]).length + t.length ≤ c.max_size
        rw [List.length_append, show ([(k, v)] : List (String × V)).length = 1 from rfl]
        have : ((k, v) :: t).length = t.length + 1 := rfl
        omega)
    show (match applyOp c (CacheOp.set k v) with
      | none => none
      | some c2 => runOps c2 (setsOf t)) = _
    rw [hstep]
    show runOps _ (setsOf t) = _
    rw [hih]
    congr 1
    congr 1
    · show (c.cache ++ [(k, v)]) ++ t = c.cache ++ (k, v) :: t
      rw [List.append_assoc]
      rfl
    · show (c.access_times ++ [(k, c.now)]) ++ stamps (c.now + 1) (PyDict.keys t) =
        c.access_times ++ stamps c.now (PyDict.keys ((k, v) :: t))
      rw [List.append_assoc]
      rfl
    · show (c.now + 1) + t.length = c.now + ((k, v) :: t).length
      rw [show ((k, v) :: t).length = t.length + 1 from rfl]
      omega

/-- `set` on an explicit state at capacity: evict the oldest key, then
insert. -/
theorem cache_set_state_at_capacity {V : Type} (m : Nat) (d : List (String × V))
    (ts : List (String × Nat)) (n : Nat) (k : String) (v : V) (old : String)
    (hcap : m ≤ d.length) (hold : oldestKey ts = some old) :
    Cache.set ⟨m, d, ts, n⟩ k v = some
      ⟨m, PyDict.insert (PyDict.erase d old) k v,
        PyDict.insert (PyDict.erase ts old) k n, n + 1⟩ := by
  show (if m ≤ d.length then
      match oldestKey ts with
      | none => none
      | some o =>
        some (⟨m, PyDict.insert (PyDict.erase d o) k v,
          PyDict.insert (PyDict.erase ts o) k n, n + 1⟩ : Cache V)
    else some (⟨m, PyDict.insert d k v, PyDict.insert ts k n, n + 1⟩ : Cache V)) = _
  rw [if_pos hcap, hold]

/-- `get` on an explicit state, hit case: bump the access time. -/
theorem cache_get_state_hit {V : Type} (m : Nat) (d : List (String × V))
    (ts : List (String × Nat)) (n : Nat) (k : String) (v : V)
    (hl : PyDict.lookup d k = some v) :
    Cache.get ⟨m, d, ts, n⟩ k = (some v, ⟨m, d, PyDict.insert ts k n, n + 1⟩) := by
  show (match PyDict.lookup d k with
    | some v => (some v, (⟨m, d, PyDict.insert ts k n, n + 1⟩ : Cache V))
    | none => (none, (⟨m, d, ts, n⟩ : Cache V))) = _
  rw [hl]

/-- A `set` below capacity evicts nothing: every present key stays. -/
theorem cache_set_below_no_evict {V : Type} (c : Cache V) (k : String) (v : V)
    (h : c.cache.length < c.max_size) :
    ∃ c', c.set k v = some c' ∧
      ∀ j ∈ PyDict.keys c.cache, j ∈ PyDict.keys c'.cache := by
  have hcap : ¬ c.max_size ≤ c.cache.length := by omega
  refine ⟨{ c with
      cache := PyDict.insert c.cache k v
      access_times := PyDict.insert c.access_times k c.now
      now := c.now + 1 }, ?_, ?_⟩
  · unfold Cache.set
    rw [if_neg hcap]
  · intro j hj
    exact (PyDict.mem_keys_insert _ _ _ _).mpr (Or.inr hj)

/-- A `set` at capacity evicts the key with the oldest access time — even
when the key being written is already present (an overwrite). -/
theorem cache_set_at_capacity_evicts {V : Type} (c : Cache V) (k : String) (v : V)
    (old : String) (hcap : c.max_size ≤ c.cache.length)
    (hold : oldestKey c.access_times = some old) (hne : old ≠ k)
    (hnd : (PyDict.keys c.cache).Nodup) :
    ∃ c', c.set k v = some c' ∧ old ∉ PyDict.keys c'.cache := by
  refine ⟨{ c with
      cache := PyDict.insert (PyDict.erase c.cache old) k v
      access_times := PyDict.insert (PyDict.erase c.access_times old) k c.now
      now := c.now + 1 }, ?_, ?_⟩
  · unfold Cache.set
    rw [if_pos hcap, hold]
  · intro hmem
    rcases (PyDict.mem_keys_insert _ _ _ _).mp hmem with rfl | hmem
    · exact hne rfl
    · exact PyDict.not_mem_keys_erase_self _ _ hnd hmem

/-- A `get` hit stamps the key with the current clock, strictly fresher
than every other entry's stamp. -/
theorem cache_get_refreshes {V : Type} (c : Cache V) (k : String) (v : V)
    (hl : PyDict.lookup c.cache k = some v)
    (hb : ∀ p ∈ c.access_times, p.2 < c.now) :
    (c.get k).1 = some v ∧
    PyDict.lookup (c.get k).2.access_times k = some c.now ∧
    ∀ p ∈ (c.get k).2.access_times, p.1 ≠ k → p.2 < c.now := by
  have heq : c.get k = (some v,
      { c with access_times := PyDict.insert c.access_times k c.now, now := c.now + 1 }) := by
    unfold Cache.get
    rw [hl]
  rw [heq]
  refine ⟨rfl, PyDict.lookup_insert_self _ _ _, ?_⟩
  intro p hp hne
  exact hb p (PyDict.mem_of_mem_insert_ne _ _ _ _ hp hne)

/-- A `set` stamps the key with the current clock, strictly fresher than
every other entry's stamp. -/
theorem cache_set_refreshes {V : Type} (c : Cache V) (k : String) (v : V)
    (c' : Cache V) (hset : c.set k v = some c')
    (hb : ∀ p ∈ c.access_times, p.2 < c.now) :
    PyDict.lookup c'.access_times k = some c.now ∧
    ∀ p ∈ c'.access_times, p.1 ≠ k → p.2 < c.now := by
  unfold Cache.set at hset
  by_cases hcap : c.max_size ≤ c.cache.length
  · rw [if_pos hcap] at hset
    cases hold : oldestKey c.access_times with
    | none => rw [hold] at hset; exact absurd hset (by simp)
    | some old =>
      rw [hold] at hset
      injection hset with hset
      subst hset
      refine ⟨PyDict.lookup_insert_self _ _ _, ?_⟩
      intro p hp hne
      exact hb p (PyDict.mem_of_mem_erase _ _ _
        (PyDict.mem_of_mem_insert_ne _ _ _ _ hp hne))
  · rw [if_neg hcap] at hset
    injection hset with hset
    subst hset
    refine ⟨PyDict.lookup_insert_self _ _ _, ?_⟩
    intro p hp hne
    exact hb p (PyDict.mem_of_mem_insert_ne _ _ _ _ hp hne)

/-- After a `get` bumps the first stamped key, the second stamped key
holds the minimum access time. -/
theorem oldestKey_get_bump (k0 k1 : String) (ks : List String) (n : Nat) (hn : 1 < n) :
    oldestKey ((k0, n) :: stamps 1 (k1 :: ks)) = some k1 := by
  show oldestKey ((k0, n) :: (k1, 1) :: stamps 2 ks) = some k1
  rw [oldestKey_cons, List.foldl_cons,
    show pickMin (some (k0, n)) (k1, 1) = some (k1, 1) from by simp [pickMin, hn],
    foldl_pickMin_stay _ k1 1 fun p hp => by
      have := stamps_ge ks 2 p hp
      omega]
  rfl

/-- Filling a fresh cache of capacity `m` with `m` distinct keys and then
inserting one more distinct key evicts exactly the first (least recently
accessed) key: the final key list is the remaining fill keys followed by
the new key. -/
theorem cache_fill_then_insert_evicts_head {V : Type} (m : Nat) (k0 : String) (v0 : V)
    (lt : List (String × V)) (klast : String) (vlast : V)
    (hlenf : ((k0, v0) :: lt).length = m)
    (hnd : (PyDict.keys ((k0, v0) :: lt) ++ [klast]).Nodup) :
    ∃ c', runOps (initCache V m) (setsOf (((k0, v0) :: lt) ++ [(klast, vlast)])) = some c' ∧
      PyDict.keys c'.cache = PyDict.keys lt ++ [klast] := by
  have hndf : (PyDict.keys ((k0, v0) :: lt)).Nodup := (List.nodup_append.mp hnd).1
  have hkl : klast ∉ PyDict.keys ((k0, v0) :: lt) := fun hmem =>
    (List.nodup_append.mp hnd).2.2 hmem (List.mem_singleton.mpr rfl)
  have hklt : klast ∉ PyDict.keys lt := fun hmem =>
    hkl (by rw [PyDict.keys_cons]; exact List.mem_cons_of_mem _ hmem)
  have hfill : runOps (initCache V m) (setsOf ((k0, v0) :: lt)) = some
      ⟨m, (k0, v0) :: lt, stamps 0 (PyDict.keys ((k0, v0) :: lt)),
        ((k0, v0) :: lt).length⟩ := by
    rw [runOps_setsOf_fill ((k0, v0) :: lt) (initCache V m) hndf
      (fun j _ h0 => absurd h0 (by simp [initCache, PyDict.keys]))
      rfl (by
        have hl2 : lt.length + 1 = m := by simpa using hlenf
        simp [initCache]
        omega)]
    simp [initCache]
  have hold : oldestKey (stamps 0 (PyDict.keys ((k0, v0) :: lt))) = some k0 := by
    rw [PyDict.keys_cons]
    exact oldestKey_stamps_cons k0 (PyDict.keys lt) 0
  have hcap : m ≤ ((k0, v0) :: lt).length := hlenf.ge
  have hset := cache_set_state_at_capacity m ((k0, v0) :: lt)
    (stamps 0 (PyDict.keys ((k0, v0) :: lt))) ((k0, v0) :: lt).length
    klast vlast k0 hcap hold
  refine ⟨⟨m, PyDict.insert (PyDict.erase ((k0, v0) :: lt) k0) klast vlast,
      PyDict.insert (PyDict.erase (stamps 0 (PyDict.keys ((k0, v0) :: lt))) k0) klast
        ((k0, v0) :: lt).length,
      ((k0, v0) :: lt).length + 1⟩, ?_, ?_⟩
  · rw [show setsOf (((k0, v0) :: lt) ++ [(klast, vlast)]) =
        setsOf ((k0, v0) :: lt) ++ setsOf [(klast, vlast)] from
        List.map_append _ _ _,
      runOps_append, hfill]
    show (match applyOp (⟨m, (k0, v0) :: lt, stamps 0 (PyDict.keys ((k0, v0) :: lt)),
        ((k0, v0) :: lt).length⟩ : Cache V) (CacheOp.set klast vlast) with
      | none => none
      | some c2 => runOps c2 []) = _
    rw [show applyOp (⟨m, (k0, v0) :: lt, stamps 0 (PyDict.keys ((k0, v0) :: lt)),
        ((k0, v0) :: lt).length⟩ : Cache V) (CacheOp.set klast vlast) =
        Cache.set ⟨m, (k0, v0) :: lt, stamps 0 (PyDict.keys ((k0, v0) :: lt)),
          ((k0, v0) :: lt).length⟩ klast vlast from rfl, hset]
    rfl
  · show PyDict.keys (PyDict.insert (PyDict.erase ((k0, v0) :: lt) k0) klast vlast) = _
    rw [show PyDict.erase ((k0, v0) :: lt) k0 = lt from by simp [PyDict.erase],
      PyDict.insert_not_mem _ _ _ hklt, PyDict.keys_append]
    rfl

/-- Filling a fresh cache of capacity `m ≥ 2` with `m` distinct keys,
then reading the first key (`get`), then inserting a fresh key: the `get`
refreshed the first key's recency, so the eviction skips it and removes
the second key instead. -/
theorem cache_get_protects_from_eviction {V : Type} (m : Nat) (k0 : String) (v0 : V)
    (k1 : String) (v1 : V) (rest : List (String × V)) (knew : String) (vnew : V)
    (hlenf : ((k0, v0) :: (k1, v1) :: rest).length = m)
    (hnd : (PyDict.keys ((k0, v0) :: (k1, v1) :: rest) ++ [knew]).Nodup) :
    ∃ c', runOps (initCache V m)
        (setsOf ((k0, v0) :: (k1, v1) :: rest) ++ [CacheOp.get k0, CacheOp.set knew vnew]) =
        some c' ∧
      PyDict.keys c'.cache = k0 :: (PyDict.keys rest ++ [knew]) := by
  have hlen2 : rest.length + 2 = m := by simpa using hlenf
  have hndf : (PyDict.keys ((k0, v0) :: (k1, v1) :: rest)).Nodup :=
    (List.nodup_append.mp hnd).1
  have hknew : knew ∉ PyDict.keys ((k0, v0) :: (k1, v1) :: rest) := fun hmem =>
    (List.nodup_append.mp hnd).2.2 hmem (List.mem_singleton.mpr rfl)
  have hk01 : k0 ≠ k1 := by
    have h0 := hndf
    rw [show PyDict.keys ((k0, v0) :: (k1, v1) :: rest) =
        k0 :: k1 :: PyDict.keys rest from rfl, List.nodup_cons] at h0
    intro he
    exact h0.1 (he ▸ List.mem_cons_self _ _)
  have hknew2 : knew ∉ PyDict.keys ((k0, v0) :: rest) := by
    intro hmem
    apply hknew
    rw [show PyDict.keys ((k0, v0) :: (k1, v1) :: rest) =
      k0 :: k1 :: PyDict.keys rest from rfl]
    rcases List.mem_cons.mp (show knew ∈ k0 :: PyDict.keys rest from hmem) with h | h
    · exact h ▸ List.mem_cons_self _ _
    · exact List.mem_cons_of_mem _ (List.mem_cons_of_mem _ h)
  have hfill : runOps (initCache V m) (setsOf ((k0, v0) :: (k1, v1) :: rest)) = some
      ⟨m, (k0, v0) :: (k1, v1) :: rest,
        stamps 0 (PyDict.keys ((k0, v0) :: (k1, v1) :: rest)),
        ((k0, v0) :: (k1, v1) :: rest).length⟩ := by
    rw [runOps_setsOf_fill ((k0, v0) :: (k1, v1) :: rest) (initCache V m) hndf
      (fun j _ h0 => absurd h0 (by simp [initCache, PyDict.keys]))
      rfl (by simp [initCache]; omega)]
    simp [initCache]
  have hget : Cache.get (⟨m, (k0, v0) :: (k1, v1) :: rest,
      stamps 0 (PyDict.keys ((k0, v0) :: (k1, v1) :: rest)),
      ((k0, v0) :: (k1, v1) :: rest).length⟩ : Cache V) k0 =
      (some v0, ⟨m, (k0, v0) :: (k1, v1) :: rest,
        PyDict.insert (stamps 0 (PyDict.keys ((k0, v0) :: (k1, v1) :: rest))) k0
          ((k0, v0) :: (k1, v1) :: rest).length,
        ((k0, v0) :: (k1, v1) :: rest).length + 1⟩) :=
    cache_get_state_hit _ _ _ _ _ _ (by simp [PyDict.lookup])
  have hins_at : PyDict.insert (stamps 0 (PyDict.keys ((k0, v0) :: (k1, v1) :: rest))) k0
      ((k0, v0) :: (k1, v1) :: rest).length =
      (k0, ((k0, v0) :: (k1, v1) :: rest).length) ::
        stamps 1 (k1 :: PyDict.keys rest) := by
    show PyDict.insert ((k0, 0) :: stamps 1 (k1 :: PyDict.keys rest)) k0 _ = _
    simp [PyDict.insert]
  have hold : oldestKey ((k0, ((k0, v0) :: (k1, v1) :: rest).length) ::
      stamps 1 (k1 :: PyDict.keys rest)) = some k1 :=
    oldestKey_get_bump k0 k1 (PyDict.keys rest) _ (by
      rw [show ((k0, v0) :: (k1, v1) :: rest).length = rest.length + 2 from by simp]
      omega)
  have hset := cache_set_state_at_capacity m ((k0, v0) :: (k1, v1) :: rest)
    ((k0, ((k0, v0) :: (k1, v1) :: rest).length) :: stamps 1 (k1 :: PyDict.keys rest))
    (((k0, v0) :: (k1, v1) :: rest).length + 1) knew vnew k1 hlenf.ge hold
  refine ⟨⟨m,
      PyDict.insert (PyDict.erase ((k0, v0) :: (k1, v1) :: rest) k1) knew vnew,
      PyDict.insert (PyDict.erase ((k0, ((k0, v0) :: (k1, v1) :: rest).length) ::
        stamps 1 (k1 :: PyDict.keys rest)) k1) knew
        (((k0, v0) :: (k1, v1) :: rest).length + 1),
      ((k0, v0) :: (k1, v1) :: rest).length + 1 + 1⟩, ?_, ?_⟩
  · rw [runOps_append, hfill]
    show (match applyOp (⟨m, (k0, v0) :: (k1, v1) :: rest,
        stamps 0 (PyDict.keys ((k0, v0) :: (k1, v1) :: rest)),
        ((k0, v0) :: (k1, v1) :: rest).length⟩ : Cache V) (CacheOp.get k0) with
      | none => none
      | some c2 => runOps c2 [CacheOp.set knew vnew]) = _
    rw [show applyOp (⟨m, (k0, v0) :: (k1, v1) :: rest,
        stamps 0 (PyDict.keys ((k0, v0) :: (k1, v1) :: rest)),
        ((k0, v0) :: (k1, v1) :: rest).length⟩ : Cache V) (CacheOp.get k0) =
        some (Cache.get (⟨m, (k0, v0) :: (k1, v1) :: rest,
          stamps 0 (PyDict.keys ((k0, v0) :: (k1, v1) :: rest)),
          ((k0, v0) :: (k1, v1) :: rest).length⟩ : Cache V) k0).2 from rfl,
      hget]
    show runOps (⟨m, (k0, v0) :: (k1, v1) :: rest,
        PyDict.insert (stamps 0 (PyDict.keys ((k0, v0) :: (k1, v1) :: rest))) k0
          ((k0, v0) :: (k1, v1) :: rest).length,
        ((k0, v0) :: (k1, v1) :: rest).length + 1⟩ : Cache V)
      [CacheOp.set knew vnew] = _
    rw [hins_at]
    show (match applyOp (⟨m, (k0, v0) :: (k1, v1) :: rest,
        (k0, ((k0, v0) :: (k1, v1) :: rest).length) :: stamps 1 (k1 :: PyDict.keys rest),
        ((k0, v0) :: (k1, v1) :: rest).length + 1⟩ : Cache V) (CacheOp.set knew vnew) with
      | none => none
      | some c2 => runOps c2 []) = _
    rw [show applyOp (⟨m, (k0, v0) :: (k1, v1) :: rest,
        (k0, ((k0, v0) :: (k1, v1) :: rest).length) :: stamps 1 (k1 :: PyDict.keys rest),
        ((k0, v0) :: (k1, v1) :: rest).length + 1⟩ : Cache V) (CacheOp.set knew vnew) =
        Cache.set ⟨m, (k0, v0) :: (k1, v1) :: rest,
          (k0, ((k0, v0) :: (k1, v1) :: rest).length) :: stamps 1 (k1 :: PyDict.keys rest),
          ((k0, v0) :: (k1, v1) :: rest).length + 1⟩ knew vnew from rfl,
      hset]
    rfl
  · show PyDict.keys (PyDict.insert (PyDict.erase ((k0, v0) :: (k1, v1) :: rest) k1)
      knew vnew) = _
    rw [show PyDict.erase ((k0, v0) :: (k1, v1) :: rest) k1 = (k0, v0) :: rest from by
        simp [PyDict.erase, hk01],
      PyDict.insert_not_mem _ _ _ hknew2,
      show ((k0, v0) :: rest) ++ [(knew, vnew)] = (k0, v0) :: (rest ++ [(knew, vnew)]) from
        rfl,
      PyDict.keys_cons, PyDict.keys_append]
    rfl

/-! ## Claim C10 -/

/-- C10: for every cache created with `max_size ≥ 1` and every sequence
of `get`, `set` and `clear` operations, no operation raises, the `cache`
and `access_times` dictionaries always hold exactly the same keys (in the
same order), and the number of entries never exceeds `max_size`. -/
theorem cache_keys_sync_and_bounded :
    ∀ (V : Type) (m : Nat), 1 ≤ m → ∀ ops : List (CacheOp V),
      ∃ c', runOps (initCache V m) ops = some c' ∧
        PyDict.keys c'.cache = PyDict.keys c'.access_times ∧
        c'.cache.length ≤ m := by
  intro V m hm ops
  obtain ⟨c', hrun, _, hk, _, hl⟩ :=
    runOps_preserves ops (initCache V m) hm rfl List.nodup_nil (by simp [initCache])
  exact ⟨c', hrun, hk, hl⟩

/-- Witness for C10: a size-1 cache accepts a fill, a hit, an evicting
insert and a clear, keeping both dictionaries in sync and within bounds. -/
theorem cache_keys_sync_and_bounded_witness :
    ∃ c', runOps (initCache Nat 1)
        [CacheOp.set "a" 1, CacheOp.get "a", CacheOp.set "b" 2, CacheOp.clear] = some c' ∧
      PyDict.keys c'.cache = PyDict.keys c'.access_times ∧
      c'.cache.length ≤ 1 :=
  cache_keys_sync_and_bounded Nat 1 (by decide)
    [CacheOp.set "a" 1, CacheOp.get "a", CacheOp.set "b" 2, CacheOp.clear]

/-! ## Claim C2 -/

/-- C2 counterexample: the claim states that a `set` overwriting an
already-present key evicts nothing.  On a cache of capacity 2 filled with
`"a"` then `"b"`, overwriting `"b"` (already present — no insertion would
exceed capacity) nevertheless evicts `"a"`: the final cache holds only
`"b"`, and looking up `"a"` misses. -/
theorem cache_overwrite_evicts_counterexample :
    (runOps (initCache Nat 2)
        [CacheOp.set "a" 1, CacheOp.set "b" 2, CacheOp.set "b" 3]).map
      (fun c => PyDict.keys c.cache) = some ["b"] ∧
    (runOps (initCache Nat 2)
        [CacheOp.set "a" 1, CacheOp.set "b" 2, CacheOp.set "b" 3]).map
      (fun c => PyDict.lookup c.cache "a") = some none := by
  constructor
  · decide
  · decide

/-- C2 (amended): for every `Cache` with capacity `max_size ≥ 1`: the
least-recently-accessed entry is evicted on any `set` performed while the
cache already holds at least `max_size` entries — including a `set` that
overwrites an already-present key — and a `set` below capacity evicts
nothing; both `get` on a present key and `set` refresh that key's recency
(its access stamp becomes the current clock, strictly fresher than every
other entry's); inserting `max_size + 1` distinct keys into a fresh cache
evicts exactly the least-recently-accessed (first) key; and a `get` on a
key makes a subsequent eviction skip it and remove the next
least-recently-accessed key instead. -/
theorem cache_lru_amended :
    ∀ V : Type,
      (∀ (c : Cache V) (k : String) (v : V), c.cache.length < c.max_size →
        ∃ c', c.set k v = some c' ∧
          ∀ j ∈ PyDict.keys c.cache, j ∈ PyDict.keys c'.cache) ∧
      (∀ (c : Cache V) (k : String) (v : V) (old : String),
        c.max_size ≤ c.cache.length → oldestKey c.access_times = some old → old ≠ k →
        (PyDict.keys c.cache).Nodup →
        ∃ c', c.set k v = some c' ∧ old ∉ PyDict.keys c'.cache) ∧
      (∀ (c : Cache V) (k : String) (v : V), PyDict.lookup c.cache k = some v →
        (∀ p ∈ c.access_times, p.2 < c.now) →
        (c.get k).1 = some v ∧
        PyDict.lookup (c.get k).2.access_times k = some c.now ∧
        ∀ p ∈ (c.get k).2.access_times, p.1 ≠ k → p.2 < c.now) ∧
      (∀ (c : Cache V) (k : String) (v : V) (c' : Cache V), c.set k v = some c' →
        (∀ p ∈ c.access_times, p.2 < c.now) →
        PyDict.lookup c'.access_times k = some c.now ∧
        ∀ p ∈ c'.access_times, p.1 ≠ k → p.2 < c.now) ∧
      (∀ (m : Nat) (k0 : String) (v0 : V) (lt : List (String × V))
        (klast : String) (vlast : V),
        ((k0, v0) :: lt).length = m →
        (PyDict.keys ((k0, v0) :: lt) ++ [klast]).Nodup →
        ∃ c', runOps (initCache V m)
            (setsOf (((k0, v0) :: lt) ++ [(klast, vlast)])) = some c' ∧
          PyDict.keys c'.cache = PyDict.keys lt ++ [klast]) ∧
      (∀ (m : Nat) (k0 : String) (v0 : V) (k1 : String) (v1 : V)
        (rest : List (String × V)) (knew : String) (vnew : V),
        ((k0, v0) :: (k1, v1) :: rest).length = m →
        (PyDict.keys ((k0, v0) :: (k1, v1) :: rest) ++ [knew]).Nodup →
        ∃ c', runOps (initCache V m)
            (setsOf ((k0, v0) :: (k1, v1) :: rest) ++
              [CacheOp.get k0, CacheOp.set knew vnew]) = some c' ∧
          PyDict.keys c'.cache = k0 :: (PyDict.keys rest ++ [knew])) :=
  fun V =>
    ⟨fun c k v h => cache_set_below_no_evict c k v h,
     fun c k v old h1 h2 h3 h4 => cache_set_at_capacity_evicts c k v old h1 h2 h3 h4,
     fun c k v h1 h2 => cache_get_refreshes c k v h1 h2,
     fun c k v c' h1 h2 => cache_set_refreshes c k v c' h1 h2,
     fun m k0 v0 lt klast vlast h1 h2 =>
       cache_fill_then_insert_evicts_head m k0 v0 lt klast vlast h1 h2,
     fun m k0 v0 k1 v1 rest knew vnew h1 h2 =>
       cache_get_protects_from_eviction m k0 v0 k1 v1 rest knew vnew h1 h2⟩

/-- Witness for C2 (amended): capacity 2, inserting the three distinct
keys `"a"`, `"b"`, `"c"` evicts exactly `"a"`, leaving `["b", "c"]`. -/
theorem cache_lru_amended_witness :
    ∃ c', runOps (initCache Nat 2)
        (setsOf ((("a", 1) :: [("b", 2)]) ++ [("c", 3)])) = some c' ∧
      PyDict.keys c'.cache = PyDict.keys [("b", (2 : Nat))] ++ ["c"] :=
  (cache_lru_amended Nat).2.2.2.2.1 2 "a" 1 [("b", 2)] "c" 3 (by decide) (by decide)

end NeoStats
